import Mathlib

set_option autoImplicit false

namespace Pyb

/-- A pandas pivot DataFrame: a date index, a list of instrument columns,
and cells looked up by date and column.  A cell is `Option Rat`: `none`
models NaN ("no observation").  Only cells at dates of `dates` and columns
of `cols` belong to the frame; `val` is total for convenience. -/
structure DFrame where
  dates : List Int
  cols : List String
  val : Int → String → Option Rat

instance : Inhabited DFrame := ⟨⟨[], [], fun _ _ => none⟩⟩

/-- A row of the stock-info table: its `stockCode` and `ipoDate` columns
(dates are modelled as integers; `pd.to_datetime` is the identity here). -/
structure InfoRec where
  stockCode : String
  ipoDate : Int

abbrev StockInfo := List InfoRec

/-- One cell of pandas `fillna(method=ffill)`: a valid cell keeps its
value, a NaN cell receives the carried last valid value. -/
def fillStep (x carry : Option Rat) : Option Rat :=
  match x with
  | some a => some a
  | none => carry

/-- pandas `fillna(method=ffill)` on one column, given as the list of its
cells in date-index order, threading the last valid value. -/
def ffillList : List (Option Rat) → Option Rat → List (Option Rat)
  | [], _ => []
  | x :: xs, carry => fillStep x carry :: ffillList xs (fillStep x carry)

/-- Look up the cell of a column (the list of its cells in index order)
at date `x`, scanning the index; `none` when `x` is off the axis. -/
def colLookup : List Int → List (Option Rat) → Int → Option (Option Rat)
  | d :: ds, v :: vs, x => if x = d then some v else colLookup ds vs x
  | _, _, _ => none

/-- `df.fillna(method=ffill)`: every column is forward-filled along the
date index; cells off the frame are untouched. -/
def ffill (t : DFrame) : DFrame :=
  { t with val := fun d c =>
      if c ∈ t.cols then
        match colLookup t.dates (ffillList (t.dates.map (fun x => t.val x c)) none) d with
        | some v => v
        | none => t.val d c
      else t.val d c }

/-- The IPO date of stock `c`: the `ipoDate` of the first stock-info row
whose `stockCode` is `c` (`.iloc[0]` of the matching rows), `none` when
the code is absent from the stock-info table. -/
def ipoOf (info : StockInfo) (c : String) : Option Int :=
  (info.find? (fun r => r.stockCode == c)).map (fun r => r.ipoDate)

/-- One iteration of the column loop of `filter_by_ipo_date`: when stock
`c` has a listing record, clear its prices strictly before its IPO date
(`filtered_df.loc[filtered_df.index < ipo_date, stock] = np.nan`). -/
def maskCol (u : DFrame) (info : StockInfo) (c : String) : DFrame :=
  match ipoOf info c with
  | some ipo =>
      { u with val := fun d c2 => if c2 = c ∧ d < ipo then none else u.val d c2 }
  | none => u

/-- The column loop of `filter_by_ipo_date` over all columns of the
candlestick frame. -/
def maskIpo (t : DFrame) (info : StockInfo) : DFrame :=
  t.cols.foldl (fun u c => maskCol u info c) t

/-- `filter_by_ipo_date`: copy the candlestick frame, clear each listed
stock before its IPO date, then forward-fill the whole frame. -/
def filter_by_ipo_date (candlestick_df : DFrame) (stock_info_df : StockInfo) : DFrame :=
  ffill (maskIpo candlestick_df stock_info_df)

/-- `close_df[column].first_valid_index()`: the first date of the close
index holding a valid close price, `none` for an all-NaN column. -/
def first_close_date (close_df : DFrame) (c : String) : Option Int :=
  close_df.dates.find? (fun d => (close_df.val d c).isSome)

/-- One write of the truncation loop of `filter_factors_by_first_close`:
`filtered_factor_df.loc[factor_df.index < first_date, stock_code] = np.nan`. -/
def truncCol (u : DFrame) (c : String) (d0 : Int) : DFrame :=
  { u with val := fun d c2 => if c2 = c ∧ d < d0 then none else u.val d c2 }

/-- One iteration of the loops of `filter_factors_by_first_close`: a
column of the close frame enters `first_close_dates` when it is also a
factor column and has a valid close somewhere, and is then truncated. -/
def truncStep (close_df factor_df : DFrame) (u : DFrame) (c : String) : DFrame :=
  if c ∈ factor_df.cols then
    match first_close_date close_df c with
    | some d0 => truncCol u c d0
    | none => u
  else u

/-- `filter_factors_by_first_close`: for each column present in both the
close frame and the factor frame, clear the factor cells strictly before
the first date with a valid close price; other columns are untouched. -/
def filter_factors_by_first_close (close_df factor_df : DFrame) : DFrame :=
  close_df.cols.foldl (truncStep close_df factor_df) factor_df

/-- The valid (non-NaN) entries of the row of `t` at date `d`, in column
order (`row` with `skipna`: the values `row.min`/`row.max` range over). -/
def rowValid (t : DFrame) (d : Int) : List Rat :=
  t.cols.filterMap (fun c => t.val d c)

/-- One iteration of the date loop of the normalization step of
`create_combined_ratio`: read the row of `src` at `dt`; when it is not
all-NaN and `max_val > min_val`, write `(row - min_val) / (max_val - min_val)`
into `u` at `dt` (NaN cells stay NaN through the arithmetic); otherwise
leave `u` unchanged. -/
def normRowAt (u src : DFrame) (dt : Int) : DFrame :=
  match rowValid src dt with
  | [] => u
  | v :: vs =>
      let mn := vs.foldl min v
      let mx := vs.foldl max v
      if mn < mx then
        { u with val := fun d c =>
            if d = dt then (src.val dt c).map (fun x => (x - mn) / (mx - mn))
            else u.val d c }
      else u

/-- The per-frame normalization of `create_combined_ratio`: the date loop
over `df.index`, writing into a copy of the frame. -/
def normalizeDF (t : DFrame) : DFrame :=
  t.dates.foldl (fun u dt => normRowAt u t dt) t

/-- The union of two label axes, as pandas alignment builds it: the left
labels followed by the right labels not already present (pandas also
sorts when it can; only membership matters here). -/
def unionList {α : Type} [DecidableEq α] (xs ys : List α) : List α :=
  xs ++ ys.filter (fun y => decide (y ∉ xs))

/-- `df.fillna(0)`: every cell of the frame that is NaN becomes 0; the
frame's own axes are unchanged and no new labels appear. -/
def fillna0 (t : DFrame) : DFrame :=
  { t with val := fun d c => some ((t.val d c).getD 0) }

/-- `df * w`: scalar multiplication, cellwise on the frame's own axes;
NaN stays NaN. -/
def dfScale (t : DFrame) (w : Rat) : DFrame :=
  { t with val := fun d c => (t.val d c).map (fun x => x * w) }

/-- pandas `A + B` on two frames: the result lives on the union of the
two date indexes and the union of the two column sets, and a cell is the
numeric sum only where both operands have a valid cell — a label absent
from either operand (or a NaN cell) yields NaN in the sum. -/
def dfAdd (A B : DFrame) : DFrame :=
  { dates := unionList A.dates B.dates,
    cols := unionList A.cols B.cols,
    val := fun d c =>
      match (if d ∈ A.dates ∧ c ∈ A.cols then A.val d c else none),
          (if d ∈ B.dates ∧ c ∈ B.cols then B.val d c else none) with
      | some a, some b => some (a + b)
      | _, _ => none }

/-- One iteration of the combination loop of `create_combined_ratio`:
`combined_df = combined_df.fillna(0) + df.fillna(0) * weights[i]`.
`fillna(0)` fills only the cells a frame actually has, so the aligned
sum is NaN at any label present in only one operand. -/
def combStep (acc : DFrame) (dw : DFrame × Rat) : DFrame :=
  dfAdd (fillna0 acc) (dfScale (fillna0 dw.1) dw.2)

/-- `create_combined_ratio`: validate the configuration (list lengths
match; the weights sum to 1.0 within 0.0001), min–max normalize each
frame per date, then fold `combined_df = combined_df.fillna(0) +
df.fillna(0) * weights[i]` starting from an all-NaN frame on the first
frame's axes.  Failures are the raised `ValueError`s; an empty input
list would hit `ratio_dfs[0]` and raise an IndexError (unreachable: an
empty weight list never sums to 1.0). -/
def create_combined_ratio ( ratio_dfs : List DFrame) (weights : List Rat) :
    Except String DFrame :=
  if ratio_dfs.length ≠ weights.length then
    Except.error ("Number of ratio DataFrames must match number of weights")
  else if (1 : Rat) / 10000 < |weights.sum - 1| then
    Except.error ("Weights must sum to 1.0")
  else
    match ratio_dfs with
    | [] => Except.error ("list index out of range")
    | t0 :: _ =>
        Except.ok ((( ratio_dfs.map normalizeDF).zip weights).foldl combStep
          { dates := t0.dates, cols := t0.cols, val := fun _ _ => none })

/-- The rebalance-scheduling algorithms of the backtesting framework that
`create_strategy` picks from, each holding its `run_on_first_date` flag. -/
inductive RebAlgo
  | runQuarterly (run_on_first_date : Bool)
  | runMonthly (run_on_first_date : Bool)
  | runWeekly (run_on_first_date : Bool)
deriving DecidableEq

/-- The `run_on_first_date` flag of a rebalance algorithm. -/
def RebAlgo.runOnFirstDate : RebAlgo → Bool
  | .runQuarterly b => b
  | .runMonthly b => b
  | .runWeekly b => b

/-- The strategy object assembled by `create_strategy`: its name, the
chosen rebalance algorithm, and the arguments handed to
`SelectTopK(signal, K=k, sort_descending=...)` (whose defaults are
`all_or_none=False`, `filter_selected=True`), followed by the fixed
equal-weighting and rebalance steps. -/
structure Strategy where
  name : String
  rebalance_algo : RebAlgo
  signal : DFrame
  K : Int
  sort_descending : Bool
  all_or_none : Bool
  filter_selected : Bool

/-- `create_strategy`: dispatch the rebalance period string (any
unrecognized string falls through to quarterly) and assemble the
strategy.  The body of the source function contains no raise statement
and no validation of `k`, so construction always succeeds. -/
def create_strategy (name : String) (signal_df : DFrame) (k : Int)
    (rebalance_period : String) (sort_descending : Bool) : Except String Strategy :=
  let rebalance_algo :=
    if rebalance_period = "quarterly" then RebAlgo.runQuarterly true
    else if rebalance_period = "monthly" then RebAlgo.runMonthly true
    else if rebalance_period = "weekly" then RebAlgo.runWeekly true
    else RebAlgo.runQuarterly true
  Except.ok
    { name := name, rebalance_algo := rebalance_algo, signal := signal_df,
      K := k, sort_descending := sort_descending,
      all_or_none := false, filter_selected := true }

/-- Modelled from the spec: the WeightingEngine (§4.5) used by
`create_strategy` through the external backtesting framework
(`bt.algos.WeighEqually`), whose code is not part of this repository:
equal weight `1 / |selected_set|` to each selected instrument, weight 0
to every non-selected instrument, and all weights 0 when the selected
set is empty. -/
def weigh (selected : List String) (c : String) : Rat :=
  if c ∈ selected then 1 / (selected.length : Rat) else 0

/-- Modelled from the spec: the BacktestRunner weight rows (§4.6) of the
external backtesting framework, which is not part of this repository.
Dates are positions `0, 1, ...` on the date axis; on a rebalance date
the active weight row becomes the weighing of that date's selection, on
a hold date the previous active weight row is carried forward unchanged
(all-cash, i.e. all-zero, before the first rebalance). -/
def backtestWeights (reb : Nat → Bool) (sel : Nat → List String) : Nat → String → Rat
  | 0 => if reb 0 then weigh (sel 0) else fun _ => 0
  | n + 1 => if reb (n + 1) then weigh (sel (n + 1)) else backtestWeights reb sel n

/-- The sum of a weight row over the instrument columns. -/
def rowSum (cols : List String) (w : String → Rat) : Rat :=
  (cols.map w).sum

/-- A Python heap object: a pivot DataFrame or the stock-info table. -/
inductive PyObj
  | frame (t : DFrame)
  | info (s : StockInfo)

/-- The Python object store: objects addressed by allocation index; an
append allocates, a `set` is an in-place write. -/
abbrev Store := List PyObj

/-- Read the DataFrame stored at address `i`. -/
def getFrame (σ : Store) (i : Nat) : DFrame :=
  match σ[i]? with
  | some (PyObj.frame t) => t
  | _ => default

/-- Read the stock-info table stored at address `i`. -/
def getInfo (σ : Store) (i : Nat) : StockInfo :=
  match σ[i]? with
  | some (PyObj.info s) => s
  | _ => []

/-- One iteration of the column loop of `filter_by_ipo_date` as a store
write: it mutates the object at `fid` (the copy `filtered_df`). -/
def maskStoreStep (s : StockInfo) (fid : Nat) (st : Store) (c : String) : Store :=
  st.set fid (PyObj.frame (maskCol (getFrame st fid) s c))

/-- The statement sequence of `filter_by_ipo_date` acting on the object
store: copy the candlestick frame, copy the stock-info table and write
its converted `ipoDate` column back into that copy, run the column loop
on the candlestick copy, then allocate the forward-filled result
(`fillna` returns a fresh frame bound to the same variable) and return
its address. -/
def filter_by_ipo_date_run (σ : Store) (candle_id info_id : Nat) : Store × Nat :=
  let t := getFrame σ candle_id
  let s := getInfo σ info_id
  let fid := σ.length
  let σ1 := σ ++ [PyObj.frame t]
  let sid := σ1.length
  let σ2 := σ1 ++ [PyObj.info s]
  let σ3 := σ2.set sid (PyObj.info (getInfo σ2 sid))
  let σ4 := t.cols.foldl (maskStoreStep s fid) σ3
  let rid := σ4.length
  let σ5 := σ4 ++ [PyObj.frame (ffill (getFrame σ4 fid))]
  (σ5, rid)

/-- One iteration of the truncation loop of
`filter_factors_by_first_close` as a store write: it mutates the object
at `fid` (the copy `filtered_factor_df`). -/
def truncStoreStep (close factor : DFrame) (fid : Nat) (st : Store) (c : String) : Store :=
  if c ∈ factor.cols then
    match first_close_date close c with
    | some d0 => st.set fid (PyObj.frame (truncCol (getFrame st fid) c d0))
    | none => st
  else st

/-- The statement sequence of `filter_factors_by_first_close` acting on
the object store: copy the factor frame, compute the first-close dates
(pure reads), run the truncation loop on the copy, and return its
address. -/
def filter_factors_by_first_close_run (σ : Store) (close_id factor_id : Nat) : Store × Nat :=
  let close := getFrame σ close_id
  let factor := getFrame σ factor_id
  let fid := σ.length
  let σ1 := σ ++ [PyObj.frame factor]
  let σ2 := close.cols.foldl (truncStoreStep close factor fid) σ1
  (σ2, fid)

/-- One iteration of the date loop of the normalization step as a store
write: it mutates the object at `nid` (the copy `df_normalized`), reading
the row from the original frame `src`. -/
def normStoreInner (src : DFrame) (nid : Nat) (st : Store) (dt : Int) : Store :=
  st.set nid (PyObj.frame (normRowAt (getFrame st nid) src dt))

/-- One iteration of the outer normalization loop of
`create_combined_ratio` as store operations: allocate `df_normalized =
df.copy()`, run the date loop on it, and append its address to the
`normalized_dfs` list. -/
def normStoreStep (p : Store × List Nat) (i : Nat) : Store × List Nat :=
  let src := getFrame p.1 i
  let nid := p.1.length
  let st1 := p.1 ++ [PyObj.frame src]
  let st2 := src.dates.foldl (normStoreInner src nid) st1
  (st2, p.2 ++ [nid])

/-- One iteration of the combination loop of `create_combined_ratio` as
store operations: `combined_df.fillna(0) + df.fillna(0) * weights[i]`
builds a fresh frame, which is allocated and rebound to `combined_df`. -/
def combStoreStep (p : Store × Nat) (iw : Nat × Rat) : Store × Nat :=
  (p.1 ++ [PyObj.frame (combStep (getFrame p.1 p.2) (getFrame p.1 iw.1, iw.2))], p.1.length)

/-- The statement sequence of `create_combined_ratio` acting on the
object store: the two configuration checks, the normalization loop, the
allocation of the empty `combined_df` on the first frame's axes, and the
combination loop; returns the address of the final combined frame. -/
def create_combined_ratio_run (σ : Store) (ids : List Nat) (weights : List Rat) :
    Except String (Store × Nat) :=
  if ids.length ≠ weights.length then
    Except.error ("Number of ratio DataFrames must match number of weights")
  else if (1 : Rat) / 10000 < |weights.sum - 1| then
    Except.error ("Weights must sum to 1.0")
  else
    match ids with
    | [] => Except.error ("list index out of range")
    | i0 :: _ =>
        let p := ids.foldl normStoreStep (σ, [])
        let t0 := getFrame p.1 i0
        let cid := p.1.length
        let σc := p.1 ++ [PyObj.frame { dates := t0.dates, cols := t0.cols, val := fun _ _ => none }]
        Except.ok ((p.2.zip weights).foldl combStoreStep (σc, cid))

/-- Whether the column loop of `filter_by_ipo_date` clears the cell at
`(d, c)`: stock `c` has a listing record and `d` is strictly before its
IPO date. -/
def cutIpo (info : StockInfo) (c : String) (d : Int) : Bool :=
  match ipoOf info c with
  | some ipo => decide (d < ipo)
  | none => false

/-- Whether the truncation loop of `filter_factors_by_first_close`
clears the cell at `(d, c)`: the close column `c` has a first valid date
and `d` is strictly before it. -/
def cutClose (close_df : DFrame) (c : String) (d : Int) : Bool :=
  match first_close_date close_df c with
  | some d0 => decide (d < d0)
  | none => false

/-- Whether the normalization step writes the row at date `d`: the row
has a valid entry and `max_val > min_val`. -/
def normWritten (t : DFrame) (d : Int) : Bool :=
  match rowValid t d with
  | [] => false
  | v :: vs => decide (vs.foldl min v < vs.foldl max v)

/-- The cell the normalization step writes at `(d, c)` when it writes
the row at `d`: `(x - min_val) / (max_val - min_val)`, NaN staying NaN. -/
def normalizedCell (t : DFrame) (d : Int) (c : String) : Option Rat :=
  match rowValid t d with
  | [] => t.val d c
  | v :: vs => (t.val d c).map (fun x => (x - vs.foldl min v) / (vs.foldl max v - vs.foldl min v))

/-- A candlestick frame: one stock `A` with a price on date 0 and a
naturally missing price on date 1. -/
def exFrameA : DFrame :=
  { dates := [0, 1], cols := ["A"], val := fun d _ => if d = 0 then some 10 else none }

/-- A factor frame: one date, two stocks `A` and `B`, both with value 5. -/
def exFrameB : DFrame :=
  { dates := [0], cols := ["A", "B"], val := fun _ _ => some 5 }

/-- A one-date one-stock frame with no observation at all. -/
def exFrameC : DFrame :=
  { dates := [0], cols := ["A"], val := fun _ _ => none }

/-- A close frame: stock `A` has its first valid close on date 1. -/
def exClose : DFrame :=
  { dates := [0, 1], cols := ["A"], val := fun d _ => if d = 1 then some 5 else none }

/-- A factor frame with observations on every date for stock `A`. -/
def exFactor : DFrame :=
  { dates := [0, 1], cols := ["A"], val := fun _ _ => some 3 }

/-- A stock-info table listing stock `A` with IPO date 1. -/
def exInfo : StockInfo := [{ stockCode := "A", ipoDate := 1 }]

/-- A one-date frame with two distinct valid values, 1 for `A`, 3 for `B`. -/
def exFrameD : DFrame :=
  { dates := [0], cols := ["A", "B"], val := fun _ c => if c = "A" then some 1 else some 3 }

/-- A store holding the four example input tables. -/
def exStore : Store :=
  [PyObj.frame exFrameA, PyObj.info exInfo, PyObj.frame exClose, PyObj.frame exFactor]

/-- The combined frame `create_combined_ratio [exFrameC] [1]` returns. -/
def exComb : DFrame :=
  (([exFrameC].map normalizeDF).zip [(1 : Rat)]).foldl combStep
    { dates := exFrameC.dates, cols := exFrameC.cols, val := fun _ _ => none }

/-- A one-date frame with columns `A` and `Y` and no observation at all;
its column set differs from `exFrameC`, which lacks `Y`. -/
def exFrameE : DFrame :=
  { dates := [0], cols := ["A", "Y"], val := fun _ _ => none }

/-- The combined frame `create_combined_ratio [exFrameE, exFrameC]
[1/2, 1/2]` returns. -/
def exComb2 : DFrame :=
  (([exFrameE, exFrameC].map normalizeDF).zip [(1 : Rat) / 2, (1 : Rat) / 2]).foldl combStep
    { dates := exFrameE.dates, cols := exFrameE.cols, val := fun _ _ => none }

/-- A store `τ` extends `σ` without touching address `a`: the object at
`a` is unchanged and all of the original address space survives. -/
def StorePreserves (σ : Store) (a : Nat) (τ : Store) : Prop :=
  τ[a]? = σ[a]? ∧ σ.length ≤ τ.length

/-! ### Generic fold lemmas -/

theorem foldlInv {α β : Type} (g : β → α → β) (P : β → Prop)
    (hg : ∀ b a, P b → P (g b a)) :
    ∀ (l : List α) (b : β), P b → P (l.foldl g b) := by
  intro l
  induction l with
  | nil => intro b hb; exact hb
  | cons x xs ih => intro b hb; exact ih (g b x) (hg b x hb)

/-! ### Axes preservation and cellwise characterizations of the loops -/

theorem maskCol_dates (u : DFrame) (info : StockInfo) (c : String) :
    (maskCol u info c).dates = u.dates := by
  unfold maskCol; cases ipoOf info c <;> rfl

theorem maskCol_cols (u : DFrame) (info : StockInfo) (c : String) :
    (maskCol u info c).cols = u.cols := by
  unfold maskCol; cases ipoOf info c <;> rfl

theorem maskIpo_axes (t : DFrame) (info : StockInfo) :
    (maskIpo t info).dates = t.dates ∧ (maskIpo t info).cols = t.cols := by
  unfold maskIpo
  refine foldlInv _ (fun u => u.dates = t.dates ∧ u.cols = t.cols) ?_ t.cols t ⟨rfl, rfl⟩
  intro u c h
  exact ⟨(maskCol_dates u info c).trans h.1, (maskCol_cols u info c).trans h.2⟩

theorem maskCol_val (u : DFrame) (info : StockInfo) (c : String) (d : Int) (c2 : String) :
    (maskCol u info c).val d c2 =
      if c2 = c ∧ cutIpo info c d = true then none else u.val d c2 := by
  unfold maskCol cutIpo
  cases h : ipoOf info c with
  | none => simp
  | some ipo => by_cases hd : d < ipo <;> by_cases hc : c2 = c <;> simp [hd, hc]

theorem maskFold_val (info : StockInfo) (L : List String) :
    ∀ (u : DFrame) (d : Int) (c : String),
    (L.foldl (fun u2 c2 => maskCol u2 info c2) u).val d c =
      if c ∈ L ∧ cutIpo info c d = true then none else u.val d c := by
  induction L with
  | nil => intro u d c; simp
  | cons x xs ih =>
      intro u d c
      rw [List.foldl_cons, ih, maskCol_val]
      by_cases hcx : c = x
      · subst hcx
        by_cases hcut : cutIpo info c d = true <;> simp [hcut]
      · simp [List.mem_cons, hcx]

theorem maskIpo_val (t : DFrame) (info : StockInfo) (d : Int) (c : String) :
    (maskIpo t info).val d c =
      if c ∈ t.cols ∧ cutIpo info c d = true then none else t.val d c :=
  maskFold_val info t.cols t d c

theorem truncCol_dates (u : DFrame) (c : String) (d0 : Int) :
    (truncCol u c d0).dates = u.dates := rfl

theorem truncCol_cols (u : DFrame) (c : String) (d0 : Int) :
    (truncCol u c d0).cols = u.cols := rfl

theorem truncStep_dates (close factor u : DFrame) (c : String) :
    (truncStep close factor u c).dates = u.dates := by
  unfold truncStep
  by_cases h : c ∈ factor.cols
  · cases first_close_date close c <;> simp [h, truncCol_dates]
  · simp [h]

theorem truncStep_cols (close factor u : DFrame) (c : String) :
    (truncStep close factor u c).cols = u.cols := by
  unfold truncStep
  by_cases h : c ∈ factor.cols
  · cases first_close_date close c <;> simp [h, truncCol_cols]
  · simp [h]

theorem filter_factors_axes (close factor : DFrame) :
    (filter_factors_by_first_close close factor).dates = factor.dates ∧
      (filter_factors_by_first_close close factor).cols = factor.cols := by
  unfold filter_factors_by_first_close
  refine foldlInv _ (fun u => u.dates = factor.dates ∧ u.cols = factor.cols)
    ?_ close.cols factor ⟨rfl, rfl⟩
  intro u c h
  exact ⟨(truncStep_dates close factor u c).trans h.1,
    (truncStep_cols close factor u c).trans h.2⟩

theorem truncStep_val (close factor u : DFrame) (c2 : String) (d : Int) (c : String) :
    (truncStep close factor u c2).val d c =
      if c = c2 ∧ c2 ∈ factor.cols ∧ cutClose close c2 d = true then none
      else u.val d c := by
  unfold truncStep cutClose truncCol
  by_cases hf : c2 ∈ factor.cols
  · cases h : first_close_date close c2 with
    | none => simp [hf]
    | some d0 => by_cases hd : d < d0 <;> by_cases hc : c = c2 <;> simp [hf, hd, hc]
  · simp [hf]

theorem truncFold_val (close factor : DFrame) (L : List String) :
    ∀ (u : DFrame) (d : Int) (c : String),
    (L.foldl (truncStep close factor) u).val d c =
      if c ∈ L ∧ c ∈ factor.cols ∧ cutClose close c d = true then none
      else u.val d c := by
  induction L with
  | nil => intro u d c; simp
  | cons x xs ih =>
      intro u d c
      rw [List.foldl_cons, ih, truncStep_val]
      by_cases hcx : c = x
      · subst hcx
        by_cases hf : c ∈ factor.cols
        · by_cases hcut : cutClose close c d = true <;> simp [hf, hcut]
        · simp [hf]
      · simp [List.mem_cons, hcx]

theorem filter_factors_val (close factor : DFrame) (d : Int) (c : String) :
    (filter_factors_by_first_close close factor).val d c =
      if c ∈ close.cols ∧ c ∈ factor.cols ∧ cutClose close c d = true then none
      else factor.val d c :=
  truncFold_val close factor close.cols factor d c

/-! ### Forward-fill lemmas -/

theorem dframe_ext {a b : DFrame} (hd : a.dates = b.dates) (hc : a.cols = b.cols)
    (hv : ∀ d c, a.val d c = b.val d c) : a = b := by
  cases a with
  | mk da ca va =>
    cases b with
    | mk db cb vb =>
      rw [DFrame.mk.injEq]
      exact ⟨hd, hc, funext (fun d => funext (fun c => hv d c))⟩

theorem fillStep_fillStep (x carry : Option Rat) :
    fillStep (fillStep x carry) carry = fillStep x carry := by
  cases x <;> cases carry <;> rfl

theorem length_ffillList : ∀ (l : List (Option Rat)) (carry : Option Rat),
    (ffillList l carry).length = l.length := by
  intro l
  induction l with
  | nil => intro carry; rfl
  | cons x xs ih => intro carry; simp [ffillList, ih]

theorem ffillList_idem : ∀ (l : List (Option Rat)) (carry : Option Rat),
    ffillList (ffillList l carry) carry = ffillList l carry := by
  intro l
  induction l with
  | nil => intro carry; rfl
  | cons x xs ih =>
      intro carry
      simp only [ffillList]
      rw [fillStep_fillStep, ih]

theorem colLookup_cons (x : Int) (xs : List Int) (v : Option Rat)
    (vs : List (Option Rat)) (d : Int) :
    colLookup (x :: xs) (v :: vs) d = if d = x then some v else colLookup xs vs d := rfl

theorem colLookup_not_mem : ∀ (ds : List Int) (vs : List (Option Rat)) (d : Int),
    d ∉ ds → colLookup ds vs d = none := by
  intro ds
  induction ds with
  | nil => intro vs d _; cases vs <;> rfl
  | cons x xs ih =>
      intro vs d hd
      cases vs with
      | nil => rfl
      | cons v vs2 =>
          have hdx : ¬(d = x) := fun h => hd (h ▸ List.mem_cons_self x xs)
          unfold colLookup
          rw [if_neg hdx]
          exact ih vs2 d (fun h => hd (List.mem_cons_of_mem x h))

theorem colLookup_isSome_of_mem : ∀ (ds : List Int) (vs : List (Option Rat)) (d : Int),
    vs.length = ds.length → d ∈ ds → (colLookup ds vs d).isSome := by
  intro ds
  induction ds with
  | nil => intro vs d _ hd; exact absurd hd (List.not_mem_nil d)
  | cons x xs ih =>
      intro vs d hl hd
      cases vs with
      | nil => simp at hl
      | cons v vs2 =>
          unfold colLookup
          by_cases hdx : d = x
          · rw [if_pos hdx]; rfl
          · rw [if_neg hdx]
            have hd2 : d ∈ xs := by
              rcases List.mem_cons.mp hd with h | h
              · exact absurd h hdx
              · exact h
            exact ih vs2 d (by simpa using hl) hd2

theorem colLookup_map_self (g : Int → Option Rat) :
    ∀ (ds : List Int) (d : Int),
    colLookup ds (ds.map g) d = if d ∈ ds then some (g d) else none := by
  intro ds
  induction ds with
  | nil => intro d; simp [colLookup]
  | cons x xs ih =>
      intro d
      simp only [List.map_cons]
      unfold colLookup
      by_cases hdx : d = x
      · subst hdx; simp
      · rw [if_neg hdx, ih]
        simp [List.mem_cons, hdx]

theorem map_colLookup (dflt : Int → Option Rat) :
    ∀ (ds : List Int) (vs : List (Option Rat)), ds.Nodup → vs.length = ds.length →
    (ds.map (fun x => match colLookup ds vs x with | some w => w | none => dflt x)) = vs := by
  intro ds
  induction ds with
  | nil =>
      intro vs _ hl
      cases vs with
      | nil => rfl
      | cons v vs2 => simp at hl
  | cons d ds2 ih =>
      intro vs hnd hl
      cases vs with
      | nil => simp at hl
      | cons v vs2 =>
          have hd : d ∉ ds2 := (List.nodup_cons.mp hnd).1
          have hnd2 : ds2.Nodup := (List.nodup_cons.mp hnd).2
          have hl2 : vs2.length = ds2.length := by simpa using hl
          have hfd : (match colLookup (d :: ds2) (v :: vs2) d with
              | some w => w | none => dflt d) = v := by
            rw [colLookup_cons, if_pos rfl]
          have hcong : (ds2.map (fun x => match colLookup (d :: ds2) (v :: vs2) x with
                | some w => w | none => dflt x)) =
              (ds2.map (fun x => match colLookup ds2 vs2 x with
                | some w => w | none => dflt x)) := by
            apply List.map_congr_left
            intro a ha
            have hax : ¬(a = d) := fun h => hd (h ▸ ha)
            rw [colLookup_cons, if_neg hax]
          rw [List.map_cons, hfd, hcong, ih vs2 hnd2 hl2]

theorem ffill_dates (t : DFrame) : (ffill t).dates = t.dates := rfl

theorem ffill_cols (t : DFrame) : (ffill t).cols = t.cols := rfl

theorem ffill_val (t : DFrame) (d : Int) (c : String) :
    (ffill t).val d c =
      if c ∈ t.cols then
        match colLookup t.dates (ffillList (t.dates.map (fun x => t.val x c)) none) d with
        | some v => v
        | none => t.val d c
      else t.val d c := rfl

theorem ffill_idem (t : DFrame) (hnd : t.dates.Nodup) : ffill (ffill t) = ffill t := by
  refine dframe_ext rfl rfl ?_
  intro d c
  by_cases hc : c ∈ t.cols
  · have hmap : (t.dates.map (fun x => (ffill t).val x c)) =
        ffillList (t.dates.map (fun x => t.val x c)) none := by
      have hfun : (fun x => (ffill t).val x c) =
          (fun x => match colLookup t.dates
              (ffillList (t.dates.map (fun x2 => t.val x2 c)) none) x with
            | some w => w
            | none => t.val x c) := by
        funext x
        rw [ffill_val, if_pos hc]
      rw [hfun]
      exact map_colLookup (fun x => t.val x c) t.dates _ hnd
        (by rw [length_ffillList, List.length_map])
    rw [ffill_val (ffill t)]
    rw [show (ffill t).cols = t.cols from rfl, show (ffill t).dates = t.dates from rfl]
    rw [if_pos hc, hmap, ffillList_idem]
    cases hcl : colLookup t.dates (ffillList (t.dates.map (fun x => t.val x c)) none) d with
    | some v => rw [ffill_val t, if_pos hc, hcl]
    | none => rfl
  · rw [ffill_val (ffill t)]
    rw [show (ffill t).cols = t.cols from rfl]
    rw [if_neg hc]

theorem colLookup_ffill_some (f : Int → Option Rat) (v0 : Rat) :
    ∀ (ds : List Int) (d : Int) (carry : Option Rat),
    f d = some v0 → d ∈ ds →
    colLookup ds (ffillList (ds.map f) carry) d = some (some v0) := by
  intro ds
  induction ds with
  | nil => intro d carry _ hd; exact absurd hd (List.not_mem_nil d)
  | cons x xs ih =>
      intro d carry hf hd
      simp only [List.map_cons, ffillList]
      rw [colLookup_cons]
      by_cases hdx : d = x
      · subst hdx
        rw [if_pos rfl, hf]
        rfl
      · rw [if_neg hdx]
        have hd2 : d ∈ xs := by
          rcases List.mem_cons.mp hd with h | h
          · exact absurd h hdx
          · exact h
        exact ih d (fillStep (f x) carry) hf hd2

theorem colLookup_ffill_none (f : Int → Option Rat) :
    ∀ (ds : List Int), List.Pairwise (· < ·) ds → ∀ (d : Int),
    (∀ x ∈ ds, x ≤ d → f x = none) → d ∈ ds →
    colLookup ds (ffillList (ds.map f) none) d = some none := by
  intro ds
  induction ds with
  | nil => intro _ d _ hd; exact absurd hd (List.not_mem_nil d)
  | cons x xs ih =>
      intro hp d hnone hd
      have hpx := (List.pairwise_cons.mp hp).1
      have hpxs := (List.pairwise_cons.mp hp).2
      simp only [List.map_cons, ffillList]
      rw [colLookup_cons]
      by_cases hdx : d = x
      · subst hdx
        rw [if_pos rfl, hnone d (List.mem_cons_self d xs) le_rfl]
        rfl
      · rw [if_neg hdx]
        have hd2 : d ∈ xs := by
          rcases List.mem_cons.mp hd with h | h
          · exact absurd h hdx
          · exact h
        rw [hnone x (List.mem_cons_self x xs) (le_of_lt (hpx d hd2))]
        exact ih hpxs d (fun y hy hyd => hnone y (List.mem_cons_of_mem x hy) hyd) hd2

theorem cutIpo_mono (info : StockInfo) (c : String) {x d : Int} (hxd : x ≤ d)
    (hcut : cutIpo info c d = true) : cutIpo info c x = true := by
  unfold cutIpo at hcut ⊢
  cases h : ipoOf info c with
  | none => rw [h] at hcut; exact absurd hcut (by simp)
  | some ipo =>
      rw [h] at hcut
      exact decide_eq_true (lt_of_le_of_lt hxd (of_decide_eq_true hcut))

theorem filter_by_ipo_date_dates (t : DFrame) (info : StockInfo) :
    (filter_by_ipo_date t info).dates = t.dates := by
  unfold filter_by_ipo_date
  rw [ffill_dates, (maskIpo_axes t info).1]

theorem filter_by_ipo_date_cols (t : DFrame) (info : StockInfo) :
    (filter_by_ipo_date t info).cols = t.cols := by
  unfold filter_by_ipo_date
  rw [ffill_cols, (maskIpo_axes t info).2]

theorem filter_cut_none (t : DFrame) (info : StockInfo)
    (hsort : List.Pairwise (· < ·) t.dates) (d : Int) (c : String)
    (hc : c ∈ t.cols) (hcut : cutIpo info c d = true) :
    (filter_by_ipo_date t info).val d c = none := by
  unfold filter_by_ipo_date
  rw [ffill_val, (maskIpo_axes t info).1, (maskIpo_axes t info).2, if_pos hc]
  by_cases hd : d ∈ t.dates
  · rw [colLookup_ffill_none (fun x => (maskIpo t info).val x c) t.dates hsort d
      (fun x _ hxd => by
        show (maskIpo t info).val x c = none
        rw [maskIpo_val, if_pos ⟨hc, cutIpo_mono info c hxd hcut⟩]) hd]
  · rw [colLookup_not_mem t.dates _ d hd, maskIpo_val, if_pos ⟨hc, hcut⟩]

theorem filter_mask_fix (t : DFrame) (info : StockInfo)
    (hsort : List.Pairwise (· < ·) t.dates) :
    maskIpo (filter_by_ipo_date t info) info = filter_by_ipo_date t info := by
  refine dframe_ext (maskIpo_axes _ info).1 (maskIpo_axes _ info).2 ?_
  intro d c
  rw [maskIpo_val]
  by_cases h : c ∈ (filter_by_ipo_date t info).cols ∧ cutIpo info c d = true
  · rw [if_pos h]
    have hc : c ∈ t.cols := by rw [← filter_by_ipo_date_cols t info]; exact h.1
    exact (filter_cut_none t info hsort d c hc h.2).symm
  · rw [if_neg h]

theorem ffill_val_congr (u t : DFrame) (c : String)
    (hdates : u.dates = t.dates) (hcols : u.cols = t.cols)
    (hvc : ∀ x, u.val x c = t.val x c) (d : Int) :
    (ffill u).val d c = (ffill t).val d c := by
  rw [ffill_val u, ffill_val t, hdates, hcols]
  by_cases hc : c ∈ t.cols
  · rw [if_pos hc, if_pos hc,
      show (fun x => u.val x c) = (fun x => t.val x c) from funext hvc, hvc d]
  · rw [if_neg hc, if_neg hc, hvc d]

theorem ffill_val_some (t : DFrame) (d : Int) (c : String) (v : Rat)
    (hv : t.val d c = some v) : (ffill t).val d c = some v := by
  rw [ffill_val]
  by_cases hc : c ∈ t.cols
  · rw [if_pos hc]
    by_cases hd : d ∈ t.dates
    · rw [colLookup_ffill_some (fun x => t.val x c) v t.dates d none hv hd]
    · rw [colLookup_not_mem t.dates _ d hd, hv]
  · rw [if_neg hc]; exact hv

/-! ### Claims C4 and C5 -/

/-- C4 (counterexample): the claim that `filter_by_ipo_date`
(truncate_before_listing) leaves a column absent from the listing
records entirely unchanged is false: the frame-wide forward-fill also
touches such columns.  Stock `A` is absent from the empty record list,
yet its naturally missing price on date 1 becomes the forward-filled 10. -/
theorem filter_by_ipo_date_unlisted_cex :
    (filter_by_ipo_date exFrameA []).val 1 ("A") = some 10 ∧
      exFrameA.val 1 ("A") = none := by
  exact ⟨rfl, rfl⟩

/-- C4 (amended): a stock absent from the listing records is not IPO
truncated, but its column still passes through the frame-wide
forward-fill: the output column equals the forward-filled input column,
and in particular every cell that already had a valid value is
unchanged. -/
theorem filter_by_ipo_date_unlisted_ffill (t : DFrame) (info : StockInfo) (c : String)
    (hc : ∀ r ∈ info, r.stockCode ≠ c) :
    (∀ d, (filter_by_ipo_date t info).val d c = (ffill t).val d c) ∧
      (∀ d v, t.val d c = some v → (filter_by_ipo_date t info).val d c = some v) := by
  have hfind : info.find? (fun r => r.stockCode == c) = none :=
    List.find?_eq_none.mpr (fun r hr => by simp only [beq_iff_eq]; exact hc r hr)
  have hipo : ipoOf info c = none := by
    unfold ipoOf
    rw [hfind]
    rfl
  have hcut : ∀ d2, cutIpo info c d2 = false := by
    intro d2
    unfold cutIpo
    rw [hipo]
  have h1 : ∀ d, (filter_by_ipo_date t info).val d c = (ffill t).val d c := by
    intro d
    unfold filter_by_ipo_date
    exact ffill_val_congr (maskIpo t info) t c (maskIpo_axes t info).1 (maskIpo_axes t info).2
      (fun x => by rw [maskIpo_val]; simp [hcut x]) d
  exact ⟨h1, fun d v hv => (h1 d).trans (ffill_val_some t d c v hv)⟩

theorem filter_by_ipo_date_unlisted_ffill_witness :
    (filter_by_ipo_date exFrameA exInfo).val 0 ("B") = some 10 :=
  (filter_by_ipo_date_unlisted_ffill exFrameA exInfo ("B") (by decide)).2 0 10 rfl

/-- C5 (confirmed): `filter_by_ipo_date` (truncate_before_listing) is
idempotent: applying it to its own output with the same listing records
yields the table of a single application, on the chronologically sorted
date index the source assumes. -/
theorem filter_by_ipo_date_idem (candlestick_df : DFrame) (stock_info_df : StockInfo)
    (hsort : List.Chain' (· < ·) candlestick_df.dates) :
    filter_by_ipo_date (filter_by_ipo_date candlestick_df stock_info_df) stock_info_df =
      filter_by_ipo_date candlestick_df stock_info_df := by
  have hpw : List.Pairwise (· < ·) candlestick_df.dates := List.chain'_iff_pairwise.mp hsort
  have hnd : candlestick_df.dates.Nodup := List.Pairwise.imp (fun h => ne_of_lt h) hpw
  show ffill (maskIpo (filter_by_ipo_date candlestick_df stock_info_df) stock_info_df) = _
  rw [filter_mask_fix candlestick_df stock_info_df hpw]
  show ffill (ffill (maskIpo candlestick_df stock_info_df)) =
    ffill (maskIpo candlestick_df stock_info_df)
  exact ffill_idem _ (by rw [(maskIpo_axes candlestick_df stock_info_df).1]; exact hnd)

theorem filter_by_ipo_date_idem_witness :
    filter_by_ipo_date (filter_by_ipo_date exFrameA exInfo) exInfo =
      filter_by_ipo_date exFrameA exInfo :=
  filter_by_ipo_date_idem exFrameA exInfo (by norm_num [exFrameA, List.chain'_cons])

/-! ### Claim C1 -/

theorem find?_min_sorted {p : Int → Bool} :
    ∀ {ds : List Int}, List.Pairwise (· < ·) ds → ∀ {d0 : Int}, ds.find? p = some d0 →
    ∀ d ∈ ds, p d = true → d0 ≤ d := by
  intro ds
  induction ds with
  | nil => intro _ d0 h; simp at h
  | cons x xs ih =>
      intro hp d0 hfind d hd hpd
      by_cases hpx : p x = true
      · rw [List.find?_cons_of_pos _ hpx] at hfind
        injection hfind with h0
        subst h0
        rcases List.mem_cons.mp hd with h | h
        · subst h; exact le_rfl
        · exact le_of_lt ((List.pairwise_cons.mp hp).1 d h)
      · rw [List.find?_cons_of_neg _ hpx] at hfind
        rcases List.mem_cons.mp hd with h | h
        · subst h; exact absurd hpd hpx
        · exact ih (List.pairwise_cons.mp hp).2 hfind d h hpd

/-- C1 (confirmed): `filter_factors_by_first_close`
(truncate_before_first_price).  For an instrument column of the factor
frame: when the close frame has the column and a first valid close date
`d0` (the first — and on a sorted index the earliest — date with a valid
close), factor cells strictly before `d0` are cleared and cells on or
after `d0` are unchanged; when the close column is entirely invalid, or
the column is absent from the close frame (or from the factor frame),
the column is untouched. -/
theorem filter_factors_by_first_close_spec (close_df factor_df : DFrame) (c : String)
    (hsort : List.Chain' (· < ·) close_df.dates) :
    (∀ d0, first_close_date close_df c = some d0 →
        (close_df.val d0 c).isSome ∧ d0 ∈ close_df.dates ∧
        (∀ d ∈ close_df.dates, (close_df.val d c).isSome → d0 ≤ d) ∧
        (∀ d, c ∈ close_df.cols → c ∈ factor_df.cols → d < d0 →
          (filter_factors_by_first_close close_df factor_df).val d c = none) ∧
        (∀ d, d0 ≤ d →
          (filter_factors_by_first_close close_df factor_df).val d c = factor_df.val d c))
    ∧ (first_close_date close_df c = none →
        ∀ d, (filter_factors_by_first_close close_df factor_df).val d c = factor_df.val d c)
    ∧ (c ∉ close_df.cols →
        ∀ d, (filter_factors_by_first_close close_df factor_df).val d c = factor_df.val d c)
    ∧ (c ∉ factor_df.cols →
        ∀ d, (filter_factors_by_first_close close_df factor_df).val d c = factor_df.val d c) := by
  have hpw : List.Pairwise (· < ·) close_df.dates := List.chain'_iff_pairwise.mp hsort
  refine ⟨?_, ?_, ?_, ?_⟩
  · intro d0 hfind
    have hfind2 : close_df.dates.find? (fun d => (close_df.val d c).isSome) = some d0 := hfind
    refine ⟨@List.find?_some Int (fun d => (close_df.val d c).isSome) d0 close_df.dates hfind2,
      List.mem_of_find?_eq_some hfind2,
      fun d hd hval => find?_min_sorted hpw hfind2 d hd hval, ?_, ?_⟩
    · intro d hcc hcf hlt
      have hcut : cutClose close_df c d = true := by
        unfold cutClose
        rw [hfind]
        exact decide_eq_true hlt
      rw [filter_factors_val, if_pos ⟨hcc, hcf, hcut⟩]
    · intro d hge
      have hncond : ¬(c ∈ close_df.cols ∧ c ∈ factor_df.cols ∧
          cutClose close_df c d = true) := by
        intro hcond
        have hthis : cutClose close_df c d = true := hcond.2.2
        unfold cutClose at hthis
        rw [hfind] at hthis
        exact absurd (of_decide_eq_true hthis) (not_lt.mpr hge)
      rw [filter_factors_val, if_neg hncond]
  · intro hnone d
    have hncond : ¬(c ∈ close_df.cols ∧ c ∈ factor_df.cols ∧
        cutClose close_df c d = true) := by
      intro hcond
      have hthis : cutClose close_df c d = true := hcond.2.2
      unfold cutClose at hthis
      rw [hnone] at hthis
      exact absurd hthis (by simp)
    rw [filter_factors_val, if_neg hncond]
  · intro hcc d
    rw [filter_factors_val, if_neg (fun hcond => absurd hcond.1 hcc)]
  · intro hcf d
    rw [filter_factors_val, if_neg (fun hcond => absurd hcond.2.1 hcf)]

theorem filter_factors_by_first_close_spec_witness :
    (filter_factors_by_first_close exClose exFactor).val 0 ("A") = none ∧
      (filter_factors_by_first_close exClose exFactor).val 1 ("A") = some 3 := by
  have h := filter_factors_by_first_close_spec exClose exFactor ("A")
    (by norm_num [exClose, List.chain'_cons])
  have h1 := (h.1 1 (by rfl)).2.2.2
  exact ⟨h1.1 0 (by decide) (by decide) (by norm_num),
    (h1.2 1 le_rfl).trans (by rfl)⟩

/-! ### Claim C2 -/

/-- C2 (confirmed): `create_combined_ratio` fails — before any per-date
processing, the checks preceding the normalization and combination
loops — exactly when the number of signal frames differs from the
number of weights or the weight sum is farther than 0.0001 from 1.0;
when both preconditions hold it returns a frame and raises nothing. -/
theorem create_combined_ratio_error_iff ( ratio_dfs : List DFrame) (weights : List Rat) :
    (∃ msg, create_combined_ratio ratio_dfs weights = Except.error msg) ↔
      ( ratio_dfs.length ≠ weights.length ∨ (1 : Rat) / 10000 < |weights.sum - 1|) := by
  unfold create_combined_ratio
  by_cases h1 : ratio_dfs.length ≠ weights.length
  · rw [if_pos h1]
    exact iff_of_true ⟨_, rfl⟩ (Or.inl h1)
  · rw [if_neg h1]
    by_cases h2 : (1 : Rat) / 10000 < |weights.sum - 1|
    · rw [if_pos h2]
      exact iff_of_true ⟨_, rfl⟩ (Or.inr h2)
    · rw [if_neg h2]
      cases hr : ratio_dfs with
      | nil =>
          exfalso
          apply h2
          have hlen : ratio_dfs.length = weights.length := not_ne_iff.mp h1
          rw [hr] at hlen
          have hw : weights = [] := List.length_eq_zero.mp hlen.symm
          rw [hw]
          norm_num
      | cons t0 rest =>
          constructor
          · rintro ⟨msg, hmsg⟩
            exact Except.noConfusion hmsg
          · intro h
            rcases h with h | h
            · exact absurd h (hr ▸ h1)
            · exact absurd h h2

/-! ### Claim C3 -/

theorem foldl_min_le (l : List Rat) : ∀ (v y : Rat), (y = v ∨ y ∈ l) → l.foldl min v ≤ y := by
  induction l with
  | nil =>
      intro v y hy
      rcases hy with h | h
      · subst h; exact le_rfl
      · exact absurd h (List.not_mem_nil y)
  | cons x xs ih =>
      intro v y hy
      rw [List.foldl_cons]
      rcases hy with h | h
      · subst h
        exact le_trans (ih (min y x) (min y x) (Or.inl rfl)) (min_le_left y x)
      · rcases List.mem_cons.mp h with h2 | h2
        · subst h2
          exact le_trans (ih (min v y) (min v y) (Or.inl rfl)) (min_le_right v y)
        · exact ih (min v x) y (Or.inr h2)

theorem le_foldl_max (l : List Rat) : ∀ (v y : Rat), (y = v ∨ y ∈ l) → y ≤ l.foldl max v := by
  induction l with
  | nil =>
      intro v y hy
      rcases hy with h | h
      · subst h; exact le_rfl
      · exact absurd h (List.not_mem_nil y)
  | cons x xs ih =>
      intro v y hy
      rw [List.foldl_cons]
      rcases hy with h | h
      · subst h
        exact le_trans (le_max_left y x) (ih (max y x) (max y x) (Or.inl rfl))
      · rcases List.mem_cons.mp h with h2 | h2
        · subst h2
          exact le_trans (le_max_right v y) (ih (max v y) (max v y) (Or.inl rfl))
        · exact ih (max v x) y (Or.inr h2)

theorem normRowAt_val (u src : DFrame) (dt : Int) (d : Int) (c : String) :
    (normRowAt u src dt).val d c =
      if d = dt ∧ normWritten src dt = true then normalizedCell src dt c
      else u.val d c := by
  unfold normRowAt normWritten normalizedCell
  cases hrv : rowValid src dt with
  | nil => simp
  | cons v vs =>
      by_cases hmm2 : vs.foldl min v < vs.foldl max v
      · by_cases hd : d = dt <;> simp [hd, hmm2]
      · simp [hmm2]

theorem normFold_val (t : DFrame) (L : List Int) :
    ∀ (u : DFrame) (d : Int) (c : String),
    (L.foldl (fun u2 dt => normRowAt u2 t dt) u).val d c =
      if d ∈ L ∧ normWritten t d = true then normalizedCell t d c else u.val d c := by
  induction L with
  | nil => intro u d c; simp
  | cons x xs ih =>
      intro u d c
      rw [List.foldl_cons, ih, normRowAt_val]
      by_cases hdx : d = x
      · subst hdx
        by_cases hw : normWritten t d = true <;> simp [hw]
      · simp [List.mem_cons, hdx]

theorem normalizeDF_val (t : DFrame) (d : Int) (c : String) :
    (normalizeDF t).val d c =
      if d ∈ t.dates ∧ normWritten t d = true then normalizedCell t d c
      else t.val d c :=
  normFold_val t t.dates t d c

/-- C3 (counterexample): the claim that on any date with at least two
valid values all normalized values lie in `[0, 1]` is false: on a date
where all valid values are equal (`max_val == min_val`) the row is left
unnormalized, here keeping the raw value 5 for both instruments. -/
theorem create_combined_ratio_norm_cex :
    (0 : Int) ∈ exFrameB.dates ∧ 2 ≤ (rowValid exFrameB 0).length ∧
      (normalizeDF exFrameB).val 0 ("A") = some 5 ∧ ¬((5 : Rat) ≤ 1) := by
  refine ⟨by decide, by decide, rfl, by norm_num⟩

/-- C3 (amended): in the per-date min–max normalization step of
`create_combined_ratio`, on every axis date whose cross-section has at
least two distinct valid values (so that `max_val > min_val` and the
row is actually normalized), every normalized value of a frame column
lies in `[0, 1]`; on a date whose valid values are all equal the row is
left unnormalized. -/
theorem create_combined_ratio_norm_unit (t : DFrame) (d : Int) (c : String) (x : Rat)
    (hd : d ∈ t.dates) (hc : c ∈ t.cols)
    (hdist : ∃ a ∈ rowValid t d, ∃ b ∈ rowValid t d, a ≠ b)
    (hx : (normalizeDF t).val d c = some x) :
    0 ≤ x ∧ x ≤ 1 := by
  rcases hdist with ⟨a, ha, b, hb, hab⟩
  cases hrv : rowValid t d with
  | nil => rw [hrv] at ha; exact absurd ha (List.not_mem_nil a)
  | cons v vs =>
      rw [hrv] at ha hb
      have hmem : ∀ y : Rat, y ∈ v :: vs → (y = v ∨ y ∈ vs) := by
        intro y hy; exact List.mem_cons.mp hy
      have hmn : ∀ y : Rat, y ∈ v :: vs → vs.foldl min v ≤ y :=
        fun y hy => foldl_min_le vs v y (hmem y hy)
      have hmx : ∀ y : Rat, y ∈ v :: vs → y ≤ vs.foldl max v :=
        fun y hy => le_foldl_max vs v y (hmem y hy)
      have hlt : vs.foldl min v < vs.foldl max v := by
        rcases lt_or_le (vs.foldl min v) (vs.foldl max v) with h | h
        · exact h
        · exfalso
          apply hab
          have hax : a = vs.foldl min v :=
            le_antisymm (le_trans (hmx a ha) h) (hmn a ha)
          have hbx : b = vs.foldl min v :=
            le_antisymm (le_trans (hmx b hb) h) (hmn b hb)
          rw [hax, hbx]
      have hw : normWritten t d = true := by
        unfold normWritten
        rw [hrv]
        exact decide_eq_true hlt
      rw [normalizeDF_val, if_pos ⟨hd, hw⟩] at hx
      unfold normalizedCell at hx
      rw [hrv] at hx
      cases hv : t.val d c with
      | none => rw [hv] at hx; exact absurd hx (by simp)
      | some y =>
          rw [hv] at hx
          have hxy : (y - vs.foldl min v) / (vs.foldl max v - vs.foldl min v) = x :=
            Option.some.inj hx
          have hy : y ∈ v :: vs := by
            rw [← hrv]
            exact List.mem_filterMap.mpr ⟨c, hc, hv⟩
          rw [← hxy]
          constructor
          · exact div_nonneg (sub_nonneg.mpr (hmn y hy)) (le_of_lt (sub_pos.mpr hlt))
          · rw [div_le_one (sub_pos.mpr hlt)]
            exact sub_le_sub_right (hmx y hy) _

theorem create_combined_ratio_norm_unit_witness :
    0 ≤ (0 : Rat) ∧ (0 : Rat) ≤ 1 := by
  have hrv : rowValid exFrameD 0 = [1, 3] := rfl
  have hx : (normalizeDF exFrameD).val 0 ("A") = some 0 := by
    rw [normalizeDF_val]
    have hw : normWritten exFrameD 0 = true := by
      unfold normWritten
      rw [hrv]
      decide
    rw [if_pos ⟨by decide, hw⟩]
    unfold normalizedCell
    rw [hrv]
    show (some (1 : Rat)).map
      (fun x => (x - [(3 : Rat)].foldl min 1) / ([(3 : Rat)].foldl max 1 - [(3 : Rat)].foldl min 1)) =
      some 0
    rw [show [(3 : Rat)].foldl min 1 = 1 from by decide,
      show [(3 : Rat)].foldl max 1 = 3 from by decide]
    simp only [Option.map_some']
    norm_num
  exact create_combined_ratio_norm_unit exFrameD 0 ("A") 0 (by decide) (by decide)
    ⟨1, by rw [hrv]; decide, 3, by rw [hrv]; decide, by norm_num⟩ hx

/-! ### Claim C9 -/

theorem normalizeDF_none (t : DFrame) (d : Int) (c : String) (h : t.val d c = none) :
    (normalizeDF t).val d c = none := by
  rw [normalizeDF_val]
  by_cases hw : d ∈ t.dates ∧ normWritten t d = true
  · rw [if_pos hw]
    unfold normalizedCell
    cases hrv : rowValid t d with
    | nil => exact h
    | cons v vs => rw [h]; rfl
  · rw [if_neg hw]; exact h

theorem normRowAt_dates (u src : DFrame) (dt : Int) :
    (normRowAt u src dt).dates = u.dates := by
  unfold normRowAt
  cases rowValid src dt with
  | nil => rfl
  | cons v vs =>
      dsimp only
      split <;> rfl

theorem normRowAt_cols (u src : DFrame) (dt : Int) :
    (normRowAt u src dt).cols = u.cols := by
  unfold normRowAt
  cases rowValid src dt with
  | nil => rfl
  | cons v vs =>
      dsimp only
      split <;> rfl

theorem normalizeDF_axes (t : DFrame) :
    (normalizeDF t).dates = t.dates ∧ (normalizeDF t).cols = t.cols := by
  unfold normalizeDF
  refine foldlInv _ (fun u => u.dates = t.dates ∧ u.cols = t.cols) ?_ t.dates t ⟨rfl, rfl⟩
  intro u dt h
  exact ⟨(normRowAt_dates u t dt).trans h.1, (normRowAt_cols u t dt).trans h.2⟩

theorem unionList_eq_left {α : Type} [DecidableEq α] (xs ys : List α)
    (h : ∀ y ∈ ys, y ∈ xs) : unionList xs ys = xs := by
  unfold unionList
  rw [List.filter_eq_nil_iff.mpr, List.append_nil]
  intro y hy
  simp [h y hy]

theorem combStep_val (acc df : DFrame) (w : Rat) (d : Int) (c : String) :
    (combStep acc (df, w)).val d c =
      if (d ∈ acc.dates ∧ c ∈ acc.cols) ∧ (d ∈ df.dates ∧ c ∈ df.cols) then
        some ((acc.val d c).getD 0 + (df.val d c).getD 0 * w)
      else none := by
  show (match (if d ∈ acc.dates ∧ c ∈ acc.cols then some ((acc.val d c).getD 0) else none),
      (if d ∈ df.dates ∧ c ∈ df.cols then some ((df.val d c).getD 0 * w) else none) with
    | some a, some b => some (a + b)
    | _, _ => none) = _
  by_cases h1 : d ∈ acc.dates ∧ c ∈ acc.cols
  · by_cases h2 : d ∈ df.dates ∧ c ∈ df.cols
    · rw [if_pos h1, if_pos h2, if_pos ⟨h1, h2⟩]
    · rw [if_pos h1, if_neg h2, if_neg (fun hc => h2 hc.2)]
  · by_cases h2 : d ∈ df.dates ∧ c ∈ df.cols
    · rw [if_neg h1, if_pos h2, if_neg (fun hc => h1 hc.1)]
    · rw [if_neg h1, if_neg h2, if_neg (fun hc => h1 hc.1)]

theorem combStep_axes_aligned (dates0 : List Int) (cols0 : List String) (acc : DFrame)
    (p : DFrame × Rat) (hp : p.1.dates = dates0 ∧ p.1.cols = cols0)
    (h1 : acc.dates = dates0) (h2 : acc.cols = cols0) :
    (combStep acc p).dates = dates0 ∧ (combStep acc p).cols = cols0 := by
  cases p with
  | mk df w =>
      constructor
      · show unionList acc.dates df.dates = dates0
        rw [h1, hp.1]
        exact unionList_eq_left dates0 dates0 (fun y hy => hy)
      · show unionList acc.cols df.cols = cols0
        rw [h2, hp.2]
        exact unionList_eq_left cols0 cols0 (fun y hy => hy)

theorem combFold_aligned_isSome (dates0 : List Int) (cols0 : List String) (d : Int)
    (c : String) (hd : d ∈ dates0) (hc : c ∈ cols0) :
    ∀ (l : List (DFrame × Rat)) (acc : DFrame),
    (∀ p ∈ l, p.1.dates = dates0 ∧ p.1.cols = cols0) →
    acc.dates = dates0 → acc.cols = cols0 → l ≠ [] →
    ((l.foldl combStep acc).val d c).isSome := by
  intro l
  induction l with
  | nil => intro acc _ _ _ h; exact absurd rfl h
  | cons p ps ih =>
      intro acc hl h1 h2 _
      rw [List.foldl_cons]
      have hp := hl p (List.mem_cons_self p ps)
      have hax := combStep_axes_aligned dates0 cols0 acc p hp h1 h2
      cases hps : ps with
      | nil =>
          rw [List.foldl_nil]
          cases p with
          | mk df w =>
              rw [combStep_val, if_pos ⟨⟨show d ∈ acc.dates by rw [h1]; exact hd,
                show c ∈ acc.cols by rw [h2]; exact hc⟩,
                ⟨show d ∈ df.dates by rw [show df.dates = dates0 from hp.1]; exact hd,
                  show c ∈ df.cols by rw [show df.cols = cols0 from hp.2]; exact hc⟩⟩]
              rfl
      | cons q qs =>
          rw [← hps]
          exact ih (combStep acc p) (fun r hr => hl r (List.mem_cons_of_mem p hr))
            hax.1 hax.2 (by rw [hps]; simp)

theorem combFold_aligned_zero (dates0 : List Int) (cols0 : List String) (d : Int)
    (c : String) (hd : d ∈ dates0) (hc : c ∈ cols0) :
    ∀ (l : List (DFrame × Rat)) (acc : DFrame),
    (∀ p ∈ l, p.1.dates = dates0 ∧ p.1.cols = cols0) →
    acc.dates = dates0 → acc.cols = cols0 →
    (∀ p ∈ l, p.1.val d c = none) → (acc.val d c).getD 0 = 0 → l ≠ [] →
    (l.foldl combStep acc).val d c = some 0 := by
  intro l
  induction l with
  | nil => intro acc _ _ _ _ _ h; exact absurd rfl h
  | cons p ps ih =>
      intro acc hl h1 h2 hnone hacc _
      rw [List.foldl_cons]
      have hp := hl p (List.mem_cons_self p ps)
      have hax := combStep_axes_aligned dates0 cols0 acc p hp h1 h2
      have hstep : (combStep acc p).val d c = some 0 := by
        cases p with
        | mk df w =>
            have hdf : df.val d c = none := hnone (df, w) (List.mem_cons_self (df, w) ps)
            rw [combStep_val, if_pos ⟨⟨show d ∈ acc.dates by rw [h1]; exact hd,
              show c ∈ acc.cols by rw [h2]; exact hc⟩,
              ⟨show d ∈ df.dates by rw [show df.dates = dates0 from hp.1]; exact hd,
                show c ∈ df.cols by rw [show df.cols = cols0 from hp.2]; exact hc⟩⟩]
            rw [hacc, hdf]
            simp
      cases hps : ps with
      | nil => rw [List.foldl_nil]; exact hstep
      | cons q qs =>
          rw [← hps]
          exact ih (combStep acc p) (fun r hr => hl r (List.mem_cons_of_mem p hr))
            hax.1 hax.2 (fun r hr => hnone r (List.mem_cons_of_mem p hr))
            (by rw [hstep]; rfl) (by rw [hps]; simp)

/-- C9 (counterexample): the combined output can contain missing values.
pandas `+` aligns the operands on the union of their labels, and a label
absent from one operand is NaN in the sum even after `fillna(0)`, which
fills only the cells a frame actually has.  Column `Y` exists only in
the first input frame; every input has no observation at (0, Y); yet
the combined frame is missing there rather than holding 0. -/
theorem create_combined_ratio_missing_cex :
    (∀ t ∈ [exFrameE, exFrameC], t.val 0 ("Y") = none) ∧
      create_combined_ratio [exFrameE, exFrameC] [(1 : Rat) / 2, (1 : Rat) / 2] =
        Except.ok exComb2 ∧
      exComb2.val 0 ("Y") = none := by
  refine ⟨by decide, ?_, ?_⟩
  · unfold create_combined_ratio
    rw [if_neg (by simp), if_neg (by norm_num [List.sum_cons, List.sum_nil])]
    rfl
  · rfl

/-- C9 (amended): when the input frames are aligned — all share one date
index and one column set, the canonical-DateAxis invariant of the data
model — the combined frame has no missing cells on those axes, and a
cell at which every input frame has no observation holds the numeric
value 0, so such instruments enter later rankings with score 0.  A
label absent from one input frame instead yields a missing output
cell. -/
theorem create_combined_ratio_aligned_no_missing ( ratio_dfs : List DFrame)
    (weights : List Rat) (out : DFrame) (dates0 : List Int) (cols0 : List String)
    (hok : create_combined_ratio ratio_dfs weights = Except.ok out)
    (hax : ∀ t ∈ ratio_dfs, t.dates = dates0 ∧ t.cols = cols0) :
    (∀ d c, d ∈ dates0 → c ∈ cols0 → (out.val d c).isSome) ∧
      (∀ d c, d ∈ dates0 → c ∈ cols0 → (∀ t ∈ ratio_dfs, t.val d c = none) →
        out.val d c = some 0) := by
  unfold create_combined_ratio at hok
  by_cases h1 : ratio_dfs.length ≠ weights.length
  · rw [if_pos h1] at hok
    exact Except.noConfusion hok
  · rw [if_neg h1] at hok
    by_cases h2 : (1 : Rat) / 10000 < |weights.sum - 1|
    · rw [if_pos h2] at hok
      exact Except.noConfusion hok
    · rw [if_neg h2] at hok
      cases hr : ratio_dfs with
      | nil =>
          rw [hr] at hok
          exact Except.noConfusion hok
      | cons t0 rest =>
          rw [hr] at hok
          have hout := Except.ok.inj hok
          have hlen : ratio_dfs.length = weights.length := not_ne_iff.mp h1
          cases hw : weights with
          | nil =>
              exfalso
              rw [hr, hw] at hlen
              simp at hlen
          | cons w ws =>
              have hzip : (((t0 :: rest).map normalizeDF).zip weights) =
                  (normalizeDF t0, w) :: ((rest.map normalizeDF).zip ws) := by
                rw [hw]
                rfl
              have hne : (((t0 :: rest).map normalizeDF).zip weights) ≠ [] := by
                rw [hzip]
                simp
              have hlax : ∀ p ∈ (((t0 :: rest).map normalizeDF).zip weights),
                  p.1.dates = dates0 ∧ p.1.cols = cols0 := by
                intro p hpz
                have hp1 := (List.of_mem_zip hpz).1
                rcases List.mem_map.mp hp1 with ⟨t, ht, hteq⟩
                have haxt := hax t (hr ▸ ht)
                rw [← hteq]
                exact ⟨(normalizeDF_axes t).1.trans haxt.1,
                  (normalizeDF_axes t).2.trans haxt.2⟩
              have ht0 := hax t0 (hr ▸ List.mem_cons_self t0 rest)
              constructor
              · intro d c hd hc
                rw [← hout]
                exact combFold_aligned_isSome dates0 cols0 d c hd hc _ _ hlax
                  ht0.1 ht0.2 hne
              · intro d c hd hc hnone
                rw [← hout]
                refine combFold_aligned_zero dates0 cols0 d c hd hc _ _ hlax
                  ht0.1 ht0.2 ?_ rfl hne
                intro p hpz
                have hp1 := (List.of_mem_zip hpz).1
                rcases List.mem_map.mp hp1 with ⟨t, ht, hteq⟩
                rw [← hteq]
                exact normalizeDF_none t d c (hnone t (hr ▸ ht))

theorem create_combined_ratio_aligned_no_missing_witness :
    exComb.val 0 ("A") = some 0 :=
  (create_combined_ratio_aligned_no_missing [exFrameC] [(1 : Rat)] exComb [0] ["A"]
    (by
      unfold create_combined_ratio
      rw [if_neg (by simp), if_neg (by norm_num [List.sum_cons, List.sum_nil])]
      rfl)
    (fun t ht => by
      have h := List.mem_singleton.mp ht
      rw [h]
      exact ⟨rfl, rfl⟩)).2 0 ("A") (by decide) (by decide)
    (fun t ht => by
      have h := List.mem_singleton.mp ht
      rw [h]
      rfl)

/-! ### Claim C6 -/

theorem sum_map_ite (s : List String) (q : Rat) :
    ∀ (cols : List String),
    (cols.map (fun c => if c ∈ s then q else 0)).sum =
      ((cols.filter (fun c => decide (c ∈ s))).length : Rat) * q := by
  intro cols
  induction cols with
  | nil => simp
  | cons x xs ih =>
      rw [List.map_cons, List.sum_cons, ih]
      by_cases hx : x ∈ s
      · rw [if_pos hx, List.filter_cons, if_pos (by simpa using hx), List.length_cons]
        push_cast
        ring
      · rw [if_neg hx, List.filter_cons, if_neg (by simpa using hx), zero_add]

theorem filter_mem_length (cols s : List String) (hnc : cols.Nodup) (hns : s.Nodup)
    (hsub : s ⊆ cols) :
    (cols.filter (fun c => decide (c ∈ s))).length = s.length := by
  apply List.Perm.length_eq
  rw [List.perm_ext_iff_of_nodup (List.Nodup.filter _ hnc) hns]
  intro a
  constructor
  · intro ha
    exact of_decide_eq_true (List.mem_filter.mp ha).2
  · intro ha
    exact List.mem_filter.mpr ⟨hsub ha, decide_eq_true ha⟩

theorem rowSum_weigh (cols s : List String) (hnc : cols.Nodup) (hns : s.Nodup)
    (hsub : s ⊆ cols) :
    rowSum cols (weigh s) = if s = [] then 0 else 1 := by
  show (cols.map (fun c => if c ∈ s then 1 / (s.length : Rat) else 0)).sum = _
  rw [sum_map_ite s (1 / (s.length : Rat)) cols, filter_mem_length cols s hnc hns hsub]
  cases s with
  | nil => simp
  | cons a as =>
      rw [if_neg (by simp)]
      have hlen : (((a :: as).length : Nat) : Rat) ≠ 0 := by
        rw [List.length_cons]
        push_cast
        positivity
      rw [mul_one_div, div_self hlen]

theorem rowSum_zero (cols : List String) : rowSum cols (fun _ => 0) = 0 := by
  show (cols.map (fun _ => (0 : Rat))).sum = 0
  induction cols with
  | nil => rfl
  | cons x xs ih => rw [List.map_cons, List.sum_cons, ih, add_zero]

/-- C6 (confirmed; the engine is modelled from the spec, §4.5–§4.6, as
it lives in the external backtesting framework): every weight row the
backtest state machine produces sums, over the instrument columns, to 0
(all-cash: empty selection, or no rebalance has happened yet) or to 1
(non-empty selection), never a value in between, for selections that
are duplicate-free subsets of the duplicate-free instrument columns. -/
theorem backtest_weight_row_sums (cols : List String) (reb : Nat → Bool)
    (sel : Nat → List String) (hnc : cols.Nodup)
    (hns : ∀ n, (sel n).Nodup) (hsub : ∀ n, sel n ⊆ cols) (n : Nat) :
    rowSum cols (backtestWeights reb sel n) = 0 ∨
      rowSum cols (backtestWeights reb sel n) = 1 := by
  induction n with
  | zero =>
      show rowSum cols (if reb 0 then weigh (sel 0) else fun _ => 0) = 0 ∨
        rowSum cols (if reb 0 then weigh (sel 0) else fun _ => 0) = 1
      by_cases hr : reb 0 = true
      · rw [if_pos hr, rowSum_weigh cols (sel 0) hnc (hns 0) (hsub 0)]
        by_cases h0 : sel 0 = []
        · left; rw [if_pos h0]
        · right; rw [if_neg h0]
      · rw [if_neg hr]
        left
        exact rowSum_zero cols
  | succ m ih =>
      show rowSum cols (if reb (m + 1) then weigh (sel (m + 1)) else backtestWeights reb sel m)
          = 0 ∨
        rowSum cols (if reb (m + 1) then weigh (sel (m + 1)) else backtestWeights reb sel m) = 1
      by_cases hr : reb (m + 1) = true
      · rw [if_pos hr, rowSum_weigh cols (sel (m + 1)) hnc (hns (m + 1)) (hsub (m + 1))]
        by_cases h0 : sel (m + 1) = []
        · left; rw [if_pos h0]
        · right; rw [if_neg h0]
      · rw [if_neg hr]
        exact ih

theorem backtest_weight_row_sums_witness :
    rowSum ["A", "B"] (backtestWeights (fun _ => true) (fun _ => ["A"]) 1) = 0 ∨
      rowSum ["A", "B"] (backtestWeights (fun _ => true) (fun _ => ["A"]) 1) = 1 :=
  backtest_weight_row_sums ["A", "B"] (fun _ => true) (fun _ => ["A"])
    (by decide) (fun _ => by show (["A"] : List String).Nodup; decide)
    (fun _ => by
      show (["A"] : List String) ⊆ ["A", "B"]
      intro a ha
      have h := List.mem_singleton.mp ha
      subst h
      decide) 1

/-! ### Claims C7 and C10 -/

/-- C7 (counterexample): strategy construction does not validate K: with
the non-positive K = 0, `create_strategy` raises nothing and returns
the assembled strategy object, contradicting the claim that it fails
with a configuration error whenever K ≤ 0. -/
theorem create_strategy_k_zero_cex :
    create_strategy ("s") exFrameC 0 ("quarterly") false =
      Except.ok
        { name := ("s"), rebalance_algo := RebAlgo.runQuarterly true, signal := exFrameC,
          K := 0, sort_descending := false, all_or_none := false,
          filter_selected := true } := rfl

/-- C7 (amended): the body of `create_strategy` contains no raise and no
check of K: for every K, K ≤ 0 included, construction succeeds and the
strategy carries the selection size K through unvalidated (any
validation could only happen inside the external framework). -/
theorem create_strategy_no_k_validation (name : String) (signal_df : DFrame) (k : Int)
    (rebalance_period : String) (sort_descending : Bool) :
    ∃ st, create_strategy name signal_df k rebalance_period sort_descending =
      Except.ok st ∧ st.K = k := by
  unfold create_strategy
  exact ⟨_, rfl, rfl⟩

/-- C10 (confirmed): every rebalance-period string other than quarterly,
monthly and weekly is accepted without error and silently falls back to
the quarterly rebalance algorithm, and for every period string the
chosen algorithm is constructed with `run_on_first_date` set. -/
theorem create_strategy_period_fallback (name : String) (signal_df : DFrame) (k : Int)
    (rebalance_period : String) (sort_descending : Bool)
    (hp : rebalance_period ≠ ("quarterly") ∧ rebalance_period ≠ ("monthly") ∧
      rebalance_period ≠ ("weekly")) :
    (∃ st, create_strategy name signal_df k rebalance_period sort_descending =
        Except.ok st ∧ st.rebalance_algo = RebAlgo.runQuarterly true) ∧
      (∀ p2 : String, ∃ st, create_strategy name signal_df k p2 sort_descending =
        Except.ok st ∧ st.rebalance_algo.runOnFirstDate = true) := by
  constructor
  · simp only [create_strategy]
    rw [if_neg hp.1, if_neg hp.2.1, if_neg hp.2.2]
    exact ⟨_, rfl, rfl⟩
  · intro p2
    simp only [create_strategy]
    by_cases h1 : p2 = ("quarterly")
    · rw [if_pos h1]; exact ⟨_, rfl, rfl⟩
    · rw [if_neg h1]
      by_cases h2 : p2 = ("monthly")
      · rw [if_pos h2]; exact ⟨_, rfl, rfl⟩
      · rw [if_neg h2]
        by_cases h3 : p2 = ("weekly")
        · rw [if_pos h3]; exact ⟨_, rfl, rfl⟩
        · rw [if_neg h3]; exact ⟨_, rfl, rfl⟩

theorem create_strategy_period_fallback_witness :
    ∃ st, create_strategy ("s") exFrameC 1 ("yearly") false = Except.ok st ∧
      st.rebalance_algo = RebAlgo.runQuarterly true :=
  (create_strategy_period_fallback ("s") exFrameC 1 ("yearly") false
    ⟨by decide, by decide, by decide⟩).1

/-! ### Claim C8 -/

theorem store_get_append {σ : Store} (l : List PyObj) {a : Nat} (h : a < σ.length) :
    (σ ++ l)[a]? = σ[a]? := by
  rw [List.getElem?_append, if_pos h]

theorem store_get_set_ne {σ : Store} {i a : Nat} (o : PyObj) (h : ¬(i = a)) :
    (σ.set i o)[a]? = σ[a]? := by
  rw [List.getElem?_set, if_neg h]

theorem storePreserves_refl (σ : Store) (a : Nat) : StorePreserves σ a σ := ⟨rfl, le_rfl⟩

theorem storePreserves_append {σ τ : Store} {a : Nat} (h : StorePreserves σ a τ)
    (ha : a < σ.length) (l : List PyObj) : StorePreserves σ a (τ ++ l) := by
  constructor
  · rw [store_get_append l (lt_of_lt_of_le ha h.2)]
    exact h.1
  · rw [List.length_append]
    exact le_trans h.2 (Nat.le_add_right _ _)

theorem storePreserves_set {σ τ : Store} {a i : Nat} (h : StorePreserves σ a τ)
    (ha : a < σ.length) (hi : σ.length ≤ i) (o : PyObj) :
    StorePreserves σ a (τ.set i o) := by
  constructor
  · rw [store_get_set_ne o (by omega)]
    exact h.1
  · rw [List.length_set]
    exact h.2

theorem filter_run_preserves (σ : Store) (ci ii a : Nat) (ha : a < σ.length) :
    StorePreserves σ a (filter_by_ipo_date_run σ ci ii).1 ∧
      σ.length ≤ (filter_by_ipo_date_run σ ci ii).2 := by
  have h1 : StorePreserves σ a (σ ++ [PyObj.frame (getFrame σ ci)]) :=
    storePreserves_append (storePreserves_refl σ a) ha _
  have h2 : StorePreserves σ a
      ((σ ++ [PyObj.frame (getFrame σ ci)]) ++ [PyObj.info (getInfo σ ii)]) :=
    storePreserves_append h1 ha _
  have h3 : StorePreserves σ a
      ((((σ ++ [PyObj.frame (getFrame σ ci)]) ++ [PyObj.info (getInfo σ ii)]).set
        (σ ++ [PyObj.frame (getFrame σ ci)]).length
        (PyObj.info (getInfo
          ((σ ++ [PyObj.frame (getFrame σ ci)]) ++ [PyObj.info (getInfo σ ii)])
          (σ ++ [PyObj.frame (getFrame σ ci)]).length)))) :=
    storePreserves_set h2 ha (by rw [List.length_append]; exact Nat.le_add_right _ _) _
  have h4 : StorePreserves σ a
      ((getFrame σ ci).cols.foldl (maskStoreStep (getInfo σ ii) σ.length)
        ((((σ ++ [PyObj.frame (getFrame σ ci)]) ++ [PyObj.info (getInfo σ ii)]).set
          (σ ++ [PyObj.frame (getFrame σ ci)]).length
          (PyObj.info (getInfo
            ((σ ++ [PyObj.frame (getFrame σ ci)]) ++ [PyObj.info (getInfo σ ii)])
            (σ ++ [PyObj.frame (getFrame σ ci)]).length))))) :=
    foldlInv _ (StorePreserves σ a)
      (fun st c hst => storePreserves_set hst ha le_rfl _) _ _ h3
  exact ⟨storePreserves_append h4 ha _, h4.2⟩

theorem factors_run_preserves (σ : Store) (ci fi a : Nat) (ha : a < σ.length) :
    StorePreserves σ a (filter_factors_by_first_close_run σ ci fi).1 ∧
      σ.length ≤ (filter_factors_by_first_close_run σ ci fi).2 := by
  have h1 : StorePreserves σ a (σ ++ [PyObj.frame (getFrame σ fi)]) :=
    storePreserves_append (storePreserves_refl σ a) ha _
  have h2 : StorePreserves σ a
      ((getFrame σ ci).cols.foldl
        (truncStoreStep (getFrame σ ci) (getFrame σ fi) σ.length)
        (σ ++ [PyObj.frame (getFrame σ fi)])) := by
    refine foldlInv _ (StorePreserves σ a) (fun st c hst => ?_) _ _ h1
    unfold truncStoreStep
    by_cases hf : c ∈ (getFrame σ fi).cols
    · rw [if_pos hf]
      cases first_close_date (getFrame σ ci) c with
      | some d0 => exact storePreserves_set hst ha le_rfl _
      | none => exact hst
    · rw [if_neg hf]
      exact hst
  exact ⟨h2, le_rfl⟩

theorem normStoreStep_preserves (σ : Store) (a : Nat) (ha : a < σ.length) :
    ∀ (p : Store × List Nat) (i : Nat), StorePreserves σ a p.1 →
    StorePreserves σ a (normStoreStep p i).1 := by
  intro p i hp
  show StorePreserves σ a
    ((getFrame p.1 i).dates.foldl (normStoreInner (getFrame p.1 i) p.1.length)
      (p.1 ++ [PyObj.frame (getFrame p.1 i)]))
  refine foldlInv _ (StorePreserves σ a) (fun st dt hst => ?_) _ _
    (storePreserves_append hp ha _)
  exact storePreserves_set hst ha hp.2 _

theorem combStoreStep_preserves (σ : Store) (a : Nat) (ha : a < σ.length) :
    ∀ (q : Store × Nat) (iw : Nat × Rat),
    (StorePreserves σ a q.1 ∧ σ.length ≤ q.2) →
    StorePreserves σ a (combStoreStep q iw).1 ∧ σ.length ≤ (combStoreStep q iw).2 := by
  intro q iw hq
  exact ⟨storePreserves_append hq.1 ha _, hq.1.2⟩

theorem combined_run_preserves (σ : Store) (ids : List Nat) (weights : List Rat)
    (a : Nat) (ha : a < σ.length) (st : Store) (nid : Nat)
    (hok : create_combined_ratio_run σ ids weights = Except.ok (st, nid)) :
    st[a]? = σ[a]? ∧ σ.length ≤ nid := by
  unfold create_combined_ratio_run at hok
  by_cases h1 : ids.length ≠ weights.length
  · rw [if_pos h1] at hok
    exact Except.noConfusion hok
  · rw [if_neg h1] at hok
    by_cases h2 : (1 : Rat) / 10000 < |weights.sum - 1|
    · rw [if_pos h2] at hok
      exact Except.noConfusion hok
    · rw [if_neg h2] at hok
      cases hr : ids with
      | nil =>
          rw [hr] at hok
          exact Except.noConfusion hok
      | cons i0 rest =>
          rw [hr] at hok
          have hpair := Except.ok.inj hok
          have hp : StorePreserves σ a ((i0 :: rest).foldl normStoreStep (σ, [])).1 :=
            foldlInv normStoreStep (fun p => StorePreserves σ a p.1)
              (fun p i hpp => normStoreStep_preserves σ a ha p i hpp) (i0 :: rest) (σ, [])
              (storePreserves_refl σ a)
          have hq := foldlInv combStoreStep
            (fun q => StorePreserves σ a q.1 ∧ σ.length ≤ q.2)
            (fun q iw hqq => combStoreStep_preserves σ a ha q iw hqq)
            (((i0 :: rest).foldl normStoreStep (σ, [])).2.zip weights)
            ((((i0 :: rest).foldl normStoreStep (σ, [])).1) ++
              [PyObj.frame
                { dates := (getFrame ((i0 :: rest).foldl normStoreStep (σ, [])).1 i0).dates,
                  cols := (getFrame ((i0 :: rest).foldl normStoreStep (σ, [])).1 i0).cols,
                  val := fun _ _ => none }],
              ((i0 :: rest).foldl normStoreStep (σ, [])).1.length)
            ⟨storePreserves_append hp ha _, hp.2⟩
          rw [hpair] at hq
          exact ⟨hq.1.1, hq.2⟩

/-- C8 (confirmed): run on the Python object store, none of
`filter_by_ipo_date`, `filter_factors_by_first_close` and
`create_combined_ratio` mutates an input table: every pre-existing
address — the price, stock-info, close, factor and ratio tables among
them — holds the same object after the call, and each operation returns
its result as a new table at a fresh address. -/
theorem no_input_table_mutation (σ : Store) (candle_id info_id close_id factor_id : Nat)
    (ids : List Nat) (weights : List Rat) (a : Nat) (ha : a < σ.length) :
    ((filter_by_ipo_date_run σ candle_id info_id).1[a]? = σ[a]? ∧
      σ.length ≤ (filter_by_ipo_date_run σ candle_id info_id).2) ∧
    ((filter_factors_by_first_close_run σ close_id factor_id).1[a]? = σ[a]? ∧
      σ.length ≤ (filter_factors_by_first_close_run σ close_id factor_id).2) ∧
    (∀ st nid, create_combined_ratio_run σ ids weights = Except.ok (st, nid) →
      st[a]? = σ[a]? ∧ σ.length ≤ nid) :=
  ⟨⟨(filter_run_preserves σ candle_id info_id a ha).1.1,
      (filter_run_preserves σ candle_id info_id a ha).2⟩,
    ⟨(factors_run_preserves σ close_id factor_id a ha).1.1,
      (factors_run_preserves σ close_id factor_id a ha).2⟩,
    fun st nid hok => combined_run_preserves σ ids weights a ha st nid hok⟩

theorem no_input_table_mutation_witness :
    ((filter_by_ipo_date_run exStore 0 1).1[0]? = exStore[0]? ∧
      exStore.length ≤ (filter_by_ipo_date_run exStore 0 1).2) ∧
    ((filter_factors_by_first_close_run exStore 2 3).1[0]? = exStore[0]? ∧
      exStore.length ≤ (filter_factors_by_first_close_run exStore 2 3).2) ∧
    (∀ st nid, create_combined_ratio_run exStore [2, 3] [(1 : Rat) / 2, (1 : Rat) / 2] =
        Except.ok (st, nid) → st[0]? = exStore[0]? ∧ exStore.length ≤ nid) :=
  no_input_table_mutation exStore 0 1 2 3 [2, 3] [(1 : Rat) / 2, (1 : Rat) / 2] 0 (by decide)

end Pyb
